import Mathlib

/-!
# Verification of the job/resume matching pipeline

Shallow embedding of the skill-extraction + scoring + ranking core of the
`AdvancedArrayJobMatcher` class (`AdvancedArrayJobMatcher.{hpp,cpp}`), the
variant the specification designates as canonical.

Modelling conventions:
* C++ `std::string` text is modelled as `List Char`; `::tolower` (C locale,
  ASCII) coincides with Lean's `Char.toLower`.
* `double` arithmetic is modelled over `ℝ`.
* `std::unordered_map`/`std::unordered_set` are modelled as association lists
  (later insertion shadows earlier, matching `map[k] = v` overwrite) and as
  deduplicated lists; every use below is invariant under the unspecified
  iteration order (only sums, lengths and membership are consumed).
* Trie node `weight` fields are written by `insertSkill` but never read by any
  embedded operation, so they are omitted.
-/

namespace JobMatcher

/-- Trie node: `isEndOfSkill`, `skillId`, and the `children` map
(`std::unordered_map<char, Node*>`) as an association list. -/
inductive Trie where
  | node (isEnd : Bool) (skillId : Int) (children : List (Char × Trie))

def Trie.isEnd : Trie → Bool
  | .node e _ _ => e

def Trie.skillId : Trie → Int
  | .node _ i _ => i

def Trie.children : Trie → List (Char × Trie)
  | .node _ _ cs => cs

/-- A freshly allocated `Node()`: not end of skill, `skillId = -1`. -/
def Trie.empty : Trie := .node false (-1) []

/-- `children.find(c)`: first entry with key `c` (keys are unique in tries
built by insertion, so first-match equals map lookup). -/
def lookupChild : List (Char × Trie) → Char → Option Trie
  | [], _ => none
  | (c', t) :: rest, c => if c = c' then some t else lookupChild rest c

/-- `children[c] = t`: replace the first entry with key `c`, or append. -/
def updateChild : List (Char × Trie) → Char → Trie → List (Char × Trie)
  | [], c, t => [(c, t)]
  | (c', t') :: rest, c, t =>
      if c = c' then (c, t) :: rest else (c', t') :: updateChild rest c t

/-- `SkillTrie::insertSkill`: walk the word, creating missing nodes, then mark
the final node as end-of-skill with the given id. -/
def insertSkill : List Char → Int → Trie → Trie
  | [], newId, .node _ _ cs => .node true newId cs
  | c :: w, newId, .node e sid cs =>
      let child := (lookupChild cs c).getD Trie.empty
      .node e sid (updateChild cs c (insertSkill w newId child))

/-- Insert the words of `ws` in order; the id of each word is its running
index (`skillId = skillNames.size()` at insertion time). -/
def buildTrieAux : List (List Char) → Int → Trie → Trie
  | [], _, t => t
  | w :: ws, n, t => buildTrieAux ws (n + 1) (insertSkill w n t)

def buildTrie (ws : List (List Char)) : Trie := buildTrieAux ws 0 Trie.empty

/-- The inner `while` loop of `SkillTrie::extractSkills`: starting at one text
position, descend through the trie while children match, pushing the skill id
of every end-of-skill node passed. -/
def scanFrom (t : Trie) : List Char → List Int
  | [] => []
  | c :: rest =>
      match lookupChild t.children c with
      | none => []
      | some t2 => (if t2.isEnd then [t2.skillId] else []) ++ scanFrom t2 rest

/-- The outer `for` loop of `SkillTrie::extractSkills`: run the scan from
every start position `i` of the text. -/
def scanAll (t : Trie) : List Char → List Int
  | [] => []
  | c :: rest => scanFrom t (c :: rest) ++ scanAll t rest

/-- `SkillTrie::toLowerCase`: per-character `::tolower` (ASCII). -/
def lowerStr (s : List Char) : List Char := s.map Char.toLower

/-- `SkillTrie::extractSkills(text)`. -/
def extractSkills (t : Trie) (text : List Char) : List Int :=
  scanAll t (lowerStr text)

/-- The static skill catalog of `initializeSkillTrie`, in source order
(weights omitted: they are inserted into trie nodes but never read). -/
def catalog : List (List Char) :=
  ["python".data, "java".data, "javascript".data, "sql".data,
   "c++".data, "c#".data, "go".data, "rust".data,
   "machine learning".data, "deep learning".data, "nlp".data,
   "pandas".data, "numpy".data, "scikit-learn".data,
   "tensorflow".data, "keras".data, "pytorch".data,
   "power bi".data, "tableau".data, "excel".data,
   "matplotlib".data, "seaborn".data, "plotly".data,
   "docker".data, "kubernetes".data, "aws".data,
   "azure".data, "gcp".data, "mlops".data,
   "git".data, "jenkins".data, "ci/cd".data,
   "rest apis".data, "graphql".data, "microservices".data,
   "spring boot".data, "django".data, "flask".data,
   "react".data, "angular".data, "vue".data,
   "agile".data, "scrum".data, "system design".data,
   "data cleaning".data, "reporting".data, "statistics".data,
   "computer vision".data, "natural language processing".data,
   "stakeholder management".data, "user stories".data,
   "product roadmap".data, "data pipeline".data]

/-- The trie built by `initializeSkillTrie`. -/
def catalogTrie : Trie := buildTrie catalog

/-- `p` is an initial segment of `s` (decidable phrase-at-position test). -/
def beginsWith : List Char → List Char → Bool
  | [], _ => true
  | _ :: _, [] => false
  | c :: p, d :: s => c = d && beginsWith p s

/-- Number of start positions of `s` at which `p` occurs as a contiguous
substring (positions `0 .. s.length - 1`, as in the extraction loop). -/
def occCount (p : List Char) : List Char → Nat
  | [] => 0
  | d :: rest => (if beginsWith p (d :: rest) then 1 else 0) + occCount p rest

/-- `p` occurs as a contiguous substring of `s` starting at some position. -/
def occursIn (p : List Char) : List Char → Bool
  | [] => false
  | d :: rest => beginsWith p (d :: rest) || occursIn p rest

example : extractSkills catalogTrie "java java".data = [1, 1] := by decide
example : extractSkills catalogTrie "Javascript".data = [1, 2] := by decide
example : extractSkills catalogTrie "".data = [] := rfl
example : occursIn "java".data (lowerStr "Javascript".data) = true := by decide

/-! ## Documents and scoring -/

/-- The `Job`/`Resume` record (the two C++ structs have identical shape).
`matchScore` and `descriptionHash` are never read by the embedded pipeline
and are omitted. -/
structure Doc where
  id : Int
  description : List Char
  skillIds : List Int
  skillWeights : List ℝ

/-- The `Job(jobId, desc, trie)` constructor: extract skills from the
description with the catalog trie and set all weights to `1.0`
(`skillWeights.resize(skillIds.size(), 1.0)`). -/
def mkJob (jobId : Int) (desc : List Char) : Doc :=
  let ids := extractSkills catalogTrie desc
  { id := jobId, description := desc, skillIds := ids,
    skillWeights := List.replicate ids.length (1 : ℝ) }

/-- The `Resume(resumeId, desc, trie)` constructor (identical to `mkJob`). -/
def mkResume (resumeId : Int) (desc : List Char) : Doc :=
  let ids := extractSkills catalogTrie desc
  { id := resumeId, description := desc, skillIds := ids,
    skillWeights := List.replicate ids.length (1 : ℝ) }

/-- Value of the `unordered_map<int,double>` built by
`for i: m[skillIds[i]] = skillWeights[i]`: the weight at the LAST index
holding that skill id (later writes overwrite), `0` for absent keys. -/
noncomputable def mapWeight (d : Doc) (s : Int) : ℝ :=
  match ((d.skillIds.zip d.skillWeights).reverse.find? (fun p => p.1 == s)) with
  | some p => p.2
  | none => 0

/-- The key set of that map: the distinct skill ids of the document.
(`List.dedup` is one enumeration of the `unordered_set`; every consumer below
is order-invariant.) -/
def uniqueIds (d : Doc) : List Int := d.skillIds.dedup

/-- `commonSkills` as built in `calculateAdvancedMatchScore` / `findMatches`:
iterate the job's skill-id set, keep ids present in the resume's set. -/
def commonSkills (job resume : Doc) : List Int :=
  (uniqueIds job).filter (fun s => decide (s ∈ resume.skillIds))

/-- `dotProduct` loop: over the job's map entries, multiply by the resume's
weight for that id (`0` when absent). -/
noncomputable def dotProduct (job resume : Doc) : ℝ :=
  ((uniqueIds job).map (fun s =>
    mapWeight job s * (if s ∈ resume.skillIds then mapWeight resume s else 0))).sum

/-- `jobNorm` accumulation: sum of squared weights over the job's map. -/
noncomputable def normSq (d : Doc) : ℝ :=
  ((uniqueIds d).map (fun s => mapWeight d s * mapWeight d s)).sum

/-- `AdvancedArrayJobMatcher::calculateCosineSimilarity`. -/
noncomputable def calculateCosineSimilarity (job resume : Doc) : ℝ :=
  if normSq job = 0 ∨ normSq resume = 0 then 0
  else dotProduct job resume / (Real.sqrt (normSq job) * Real.sqrt (normSq resume))

/-- `AdvancedArrayJobMatcher::calculateAdvancedMatchScore`.  The
weighted-match-bonus loop adds `skillWeight * 0.1` per common skill where
`skillWeight` is `1.0` on both branches of the placeholder `if`, embedded
here as the constant `1 * 0.1` per iteration. -/
noncomputable def calculateAdvancedMatchScore (job resume : Doc) : ℝ :=
  if job.skillIds = [] ∨ resume.skillIds = [] then 0
  else
    let common := commonSkills job resume
    if common = [] then 0
    else
      let skillMatchRatio : ℝ := (common.length : ℝ) / (job.skillIds.length : ℝ)
      let coverageRatio : ℝ := (common.length : ℝ) / (resume.skillIds.length : ℝ)
      let cos := calculateCosineSimilarity job resume
      let baseScore := skillMatchRatio * 0.4 + coverageRatio * 0.3 + cos * 0.3
      let weightedMatchBonus := common.foldl (fun acc _ => acc + 1 * 0.1) 0
      min (baseScore + weightedMatchBonus) 1

/-- `MatchResult`. -/
structure MatchResult where
  jobId : Int
  resumeId : Int
  score : ℝ
  cosineSimilarity : ℝ
  skillMatchRatio : ℝ
  coverageRatio : ℝ
  commonSkillIds : List Int

/-- `MatchResult::operator<`: compares scores only (`score > other.score`,
for descending order); candidate ids play no role. -/
def MatchResult.ltRes (a b : MatchResult) : Prop := a.score > b.score

/-- One iteration of the scoring loop in `findMatches`: build the
`MatchResult` for one job against the anchor resume.  `skillMatchRatio` and
`coverageRatio` are computed by UNGUARDED division by the two skill counts
(over `ℝ` a zero divisor yields `0`; the C++ `double` division `0.0/0`
yields NaN — the divisor being zero is what the safety claim is about). -/
noncomputable def mkMatchResult (job anchor : Doc) (resumeId : Int) : MatchResult :=
  { jobId := job.id, resumeId := resumeId,
    score := calculateAdvancedMatchScore job anchor,
    cosineSimilarity := calculateCosineSimilarity job anchor,
    skillMatchRatio := ((commonSkills job anchor).length : ℝ) / (job.skillIds.length : ℝ),
    coverageRatio := ((commonSkills job anchor).length : ℝ) / (anchor.skillIds.length : ℝ),
    commonSkillIds := commonSkills job anchor }

/-! ## Matcher state and operations -/

/-- The mutable state of an `AdvancedArrayJobMatcher`: the two document
arrays and the two id→index `unordered_map`s (modelled as association lists
where a prepended entry shadows older entries, matching `map[k] = v`). -/
structure MatcherState where
  jobs : List Doc
  resumes : List Doc
  jobIdToIndex : List (Int × Nat)
  resumeIdToIndex : List (Int × Nat)

/-- The freshly constructed matcher. -/
def initialState : MatcherState := ⟨[], [], [], []⟩

/-- `unordered_map` lookup: most recent entry for the key. -/
def lookupIdx : List (Int × Nat) → Int → Option Nat
  | [], _ => none
  | (k, v) :: rest, key => if key = k then some v else lookupIdx rest key

/-- `AdvancedArrayJobMatcher::addJob`: appends to the `jobs` array; the
id→index map is NOT touched. -/
def addJob (s : MatcherState) (j : Doc) : MatcherState :=
  { s with jobs := s.jobs ++ [j] }

/-- `AdvancedArrayJobMatcher::addResume`. -/
def addResume (s : MatcherState) (r : Doc) : MatcherState :=
  { s with resumes := s.resumes ++ [r] }

/-- `totalDocuments` in `calculateTFIDF`. -/
def totalDocuments (s : MatcherState) : Nat := s.jobs.length + s.resumes.length

/-- `skillDocumentCount[sk]`: number of documents (jobs then resumes) whose
skill-id list contains `sk` (each document counted once via the per-document
`unordered_set`). -/
def documentFrequency (s : MatcherState) (sk : Int) : Nat :=
  (s.jobs ++ s.resumes).countP (fun d => decide (sk ∈ d.skillIds))

/-- The IDF weight `log(totalDocuments / skillDocumentCount[sk])`. -/
noncomputable def idfWeight (s : MatcherState) (sk : Int) : ℝ :=
  Real.log ((totalDocuments s : ℝ) / (documentFrequency s sk : ℝ))

/-- The per-document write loop of `calculateTFIDF`:
`skillWeights[j] = idf(skillIds[j])` for every `j < skillIds.size()`;
weight entries beyond the skill-id list (none, for documents built by the
constructors) are left unchanged. -/
noncomputable def applyIdf (f : Int → ℝ) (d : Doc) : Doc :=
  { d with skillWeights := d.skillIds.map f ++ d.skillWeights.drop d.skillIds.length }

/-- `AdvancedArrayJobMatcher::calculateTFIDF`: document frequencies are
computed from the pre-update state (weight updates do not change skill ids,
so this matches the sequential C++ loops). -/
noncomputable def calculateTFIDF (s : MatcherState) : MatcherState :=
  { s with jobs := s.jobs.map (applyIdf (idfWeight s)),
           resumes := s.resumes.map (applyIdf (idfWeight s)) }

/-- The body of the `loadJobsFromCSV` read loop: ids are assigned
sequentially from 1, empty lines are skipped, and for each added job
`jobIdToIndex[jobId] = jobs.size() - 1`.  (Quote stripping of raw CSV lines
is upstream I/O and not modelled; `lines` are the cleaned lines.) -/
def loadJobsAux : MatcherState → List (List Char) → Int → MatcherState
  | s, [], _ => s
  | s, line :: rest, n =>
      if line = [] then loadJobsAux s rest n
      else loadJobsAux
        { s with jobs := s.jobs ++ [mkJob n line],
                 jobIdToIndex := (n, s.jobs.length) :: s.jobIdToIndex }
        rest (n + 1)

/-- `AdvancedArrayJobMatcher::loadJobsFromCSV` (successful path): read all
lines, then `calculateTFIDF()`. -/
noncomputable def loadJobsFromCSV (s : MatcherState) (lines : List (List Char)) : MatcherState :=
  calculateTFIDF (loadJobsAux s lines 1)

/-- The body of the `loadResumesFromCSV` read loop. -/
def loadResumesAux : MatcherState → List (List Char) → Int → MatcherState
  | s, [], _ => s
  | s, line :: rest, n =>
      if line = [] then loadResumesAux s rest n
      else loadResumesAux
        { s with resumes := s.resumes ++ [mkResume n line],
                 resumeIdToIndex := (n, s.resumes.length) :: s.resumeIdToIndex }
        rest (n + 1)

/-- `AdvancedArrayJobMatcher::loadResumesFromCSV` (successful path). -/
noncomputable def loadResumesFromCSV (s : MatcherState) (lines : List (List Char)) : MatcherState :=
  calculateTFIDF (loadResumesAux s lines 1)

/-- The forward rebuild loops of `buildIndices` (`map[docs[i].id] = i`,
`i = 0 .. size-1`; with prepend-shadowing semantics the later, larger index
wins for a duplicated id, as with `unordered_map` overwrite). -/
def indexMapAux : List Doc → Nat → List (Int × Nat) → List (Int × Nat)
  | [], _, m => m
  | d :: ds, i, m => indexMapAux ds (i + 1) ((d.id, i) :: m)

/-- `AdvancedArrayJobMatcher::buildIndices`: clear both maps and rebuild. -/
def buildIndices (s : MatcherState) : MatcherState :=
  { s with jobIdToIndex := indexMapAux s.jobs 0 [],
           resumeIdToIndex := indexMapAux s.resumes 0 [] }

/-- `AdvancedArrayJobMatcher::searchJob`: map lookup plus the
`index < jobs.size()` bounds check; the returned pointer is modelled by the
index into the `jobs` array. -/
def searchJob (s : MatcherState) (jobId : Int) : Option Nat :=
  match lookupIdx s.jobIdToIndex jobId with
  | some ix => if ix < s.jobs.length then some ix else none
  | none => none

/-- `AdvancedArrayJobMatcher::searchResume`. -/
def searchResume (s : MatcherState) (resumeId : Int) : Option Nat :=
  match lookupIdx s.resumeIdToIndex resumeId with
  | some ix => if ix < s.resumes.length then some ix else none
  | none => none

/-- The default-constructed `Resume()` (never dereferenced below: it is the
`getD` fallback behind an index searchResume has bounds-checked). -/
def defaultDoc : Doc := ⟨0, [], [], []⟩

/-- The sort step of `findMatches`.  The C++ uses `std::partial_sort` /
`std::sort` with `MatchResult::operator<` (score-descending); both leave the
relative order of equal-score elements unspecified.  The model fixes one
order with a merge sort on the same score-only comparison; no theorem below
relies on the model's tie order. -/
noncomputable def sortResults (l : List MatchResult) : List MatchResult :=
  l.mergeSort (fun a b => decide (b.score ≤ a.score))

/-- `AdvancedArrayJobMatcher::findMatches(resumeId, topK)`: on a failed
resume lookup print a not-found message (I/O, not modelled) and return the
empty vector; otherwise score every job against the anchor, sort by score
descending, and keep the first `topK` (`partial_sort` + `resize` when
`topK < size`, full sort otherwise — both yield the first
`min(topK, size)`). -/
noncomputable def findMatches (s : MatcherState) (resumeId : Int) (topK : Nat) :
    List MatchResult :=
  match searchResume s resumeId with
  | none => []
  | some ix =>
      let anchor := s.resumes.getD ix defaultDoc
      let allMatches := s.jobs.map (fun j => mkMatchResult j anchor resumeId)
      (sortResults allMatches).take topK

/-- States reachable through the public API of `AdvancedArrayJobMatcher`
(construction, CSV loads, `addJob`/`addResume` — whose `Job`/`Resume`
arguments can only come from the `Job(id, desc, trie)` constructors, the
struct types being private — and `buildIndices`/`optimizeForSearch`). -/
inductive Reachable : MatcherState → Prop where
  | init : Reachable initialState
  | addJob (s : MatcherState) (id : Int) (desc : List Char) :
      Reachable s → Reachable (addJob s (mkJob id desc))
  | addResume (s : MatcherState) (id : Int) (desc : List Char) :
      Reachable s → Reachable (addResume s (mkResume id desc))
  | loadJobs (s : MatcherState) (lines : List (List Char)) :
      Reachable s → Reachable (loadJobsFromCSV s lines)
  | loadResumes (s : MatcherState) (lines : List (List Char)) :
      Reachable s → Reachable (loadResumesFromCSV s lines)
  | buildIndices (s : MatcherState) :
      Reachable s → Reachable (buildIndices s)

/-! ## Trie lemmas: insertion and lookup -/

/-- Walk a word down the trie (the node reached after consuming `w`). -/
def lookupWord : Trie → List Char → Option Trie
  | t, [] => some t
  | t, c :: w =>
      match lookupChild t.children c with
      | none => none
      | some t2 => lookupWord t2 w

/-- The skill id recorded at the end of the walk of `w`, if the node exists
and is marked end-of-skill. -/
def endAt (t : Trie) (w : List Char) : Option Int :=
  match lookupWord t w with
  | none => none
  | some n => if n.isEnd then some n.skillId else none

theorem lookupChild_update_self (cs : List (Char × Trie)) (c : Char) (t : Trie) :
    lookupChild (updateChild cs c t) c = some t := by
  induction cs with
  | nil => simp [updateChild, lookupChild]
  | cons p rest ih =>
      obtain ⟨c', t'⟩ := p
      by_cases h : c = c'
      · subst h; simp [updateChild, lookupChild]
      · simp only [updateChild, if_neg h, lookupChild, ih, if_neg h]

theorem lookupChild_update_other (cs : List (Char × Trie)) (c d : Char) (t : Trie)
    (h : d ≠ c) : lookupChild (updateChild cs c t) d = lookupChild cs d := by
  induction cs with
  | nil => simp [updateChild, lookupChild, h]
  | cons p rest ih =>
      obtain ⟨c', t'⟩ := p
      by_cases hc : c = c'
      · subst hc; simp [updateChild, lookupChild, h]
      · simp only [updateChild, if_neg hc, lookupChild, ih]

theorem endAt_nil (t : Trie) : endAt t [] = if t.isEnd then some t.skillId else none := rfl

theorem endAt_cons (t : Trie) (c : Char) (w : List Char) :
    endAt t (c :: w) =
      match lookupChild t.children c with
      | none => none
      | some t2 => endAt t2 w := by
  cases h : lookupChild t.children c <;> simp [endAt, lookupWord, h]

theorem endAt_of_empty (w : List Char) : endAt Trie.empty w = none := by
  cases w <;> rfl

theorem endAt_insert_self (w : List Char) (id : Int) (t : Trie) :
    endAt (insertSkill w id t) w = some id := by
  induction w generalizing t with
  | nil =>
      obtain ⟨e, sid, cs⟩ := t
      simp [insertSkill, endAt, lookupWord, Trie.isEnd, Trie.skillId]
  | cons c w ih =>
      obtain ⟨e, sid, cs⟩ := t
      rw [insertSkill, endAt_cons]
      simp only [Trie.children, lookupChild_update_self]
      exact ih _

theorem endAt_insert_other (w : List Char) (id : Int) (t : Trie) (v : List Char)
    (hne : v ≠ w) : endAt (insertSkill w id t) v = endAt t v := by
  induction w generalizing t v with
  | nil =>
      obtain ⟨e, sid, cs⟩ := t
      cases v with
      | nil => exact absurd rfl hne
      | cons d v' =>
          rw [insertSkill, endAt_cons, endAt_cons]
          simp only [Trie.children]
  | cons c w ih =>
      obtain ⟨e, sid, cs⟩ := t
      cases v with
      | nil =>
          rw [insertSkill, endAt_nil, endAt_nil]
          simp only [Trie.isEnd, Trie.skillId]
      | cons d v' =>
          rw [insertSkill, endAt_cons, endAt_cons]
          simp only [Trie.children]
          by_cases hdc : d = c
          · subst hdc
            rw [lookupChild_update_self]
            have hv' : v' ≠ w := fun h => hne (by rw [h])
            cases hcs : lookupChild cs d with
            | none =>
                simp only [hcs, Option.getD_none]
                rw [ih Trie.empty v' hv', endAt_of_empty]
            | some ch =>
                simp only [hcs, Option.getD_some]
                exact ih ch v' hv'
          · rw [lookupChild_update_other _ _ _ _ hdc]

/-! ## Trie lemmas: the built catalog trie -/

theorem endAt_buildAux_not_mem (ws : List (List Char)) (n : Int) (t : Trie)
    (v : List Char) (hv : v ∉ ws) : endAt (buildTrieAux ws n t) v = endAt t v := by
  induction ws generalizing n t with
  | nil => rfl
  | cons w ws ih =>
      have hvw : v ≠ w := fun h => hv (h ▸ List.mem_cons_self w ws)
      have hvs : v ∉ ws := fun h => hv (List.mem_cons_of_mem w h)
      rw [buildTrieAux, ih _ _ hvs, endAt_insert_other _ _ _ _ hvw]

theorem endAt_buildAux_get (ws : List (List Char)) (n : Int) (t : Trie)
    (hnd : ws.Nodup) (i : Nat) (hi : i < ws.length) :
    endAt (buildTrieAux ws n t) (ws.get ⟨i, hi⟩) = some (n + i) := by
  induction ws generalizing n t i with
  | nil => exact absurd hi (Nat.not_lt_zero i)
  | cons w ws ih =>
      rcases List.nodup_cons.mp hnd with ⟨hw, hnd'⟩
      cases i with
      | zero =>
          rw [buildTrieAux]
          show endAt (buildTrieAux ws (n + 1) (insertSkill w n t)) w = some (n + 0)
          rw [endAt_buildAux_not_mem _ _ _ _ hw, endAt_insert_self]
          norm_num
      | succ j =>
          have hj : j < ws.length := Nat.lt_of_succ_lt_succ hi
          rw [buildTrieAux]
          show endAt (buildTrieAux ws (n + 1) (insertSkill w n t)) (ws.get ⟨j, hj⟩) = _
          rw [ih _ _ hnd' j hj]
          congr 1
          push_cast
          ring

theorem catalog_nodup : catalog.Nodup := by decide

theorem catalog_ne_nil : ∀ i, i < catalog.length → catalog.getD i [] ≠ [] := by
  decide

/-- Characterization of end-of-skill nodes in the catalog trie: the walk of
`v` ends at an end-of-skill node with id `id` iff `v` is the `id`-th catalog
phrase. -/
theorem endAt_catalogTrie_iff (v : List Char) (id : Int) :
    endAt catalogTrie v = some id ↔
      ∃ i : Nat, i < catalog.length ∧ catalog.getD i [] = v ∧ id = (i : Int) := by
  constructor
  · intro h
    by_cases hv : v ∈ catalog
    · rcases List.mem_iff_get.mp hv with ⟨⟨i, hi⟩, hget⟩
      refine ⟨i, hi, ?_, ?_⟩
      · rw [List.getD_eq_get _ _ hi]; exact hget
      · have := endAt_buildAux_get catalog 0 Trie.empty catalog_nodup i hi
        rw [hget] at this
        rw [catalogTrie, buildTrie] at h
        rw [this] at h
        have : id = 0 + (i : Int) := (Option.some_injective _ h).symm
        omega
    · rw [catalogTrie, buildTrie, endAt_buildAux_not_mem _ _ _ _ hv,
        endAt_of_empty] at h
      exact absurd h (by simp)
  · rintro ⟨i, hi, hv, hid⟩
    subst hid
    have hg := endAt_buildAux_get catalog 0 Trie.empty catalog_nodup i hi
    rw [List.getD_eq_get _ _ hi] at hv
    rw [← hv, catalogTrie, buildTrie, hg]
    norm_num

/-! ## Extraction lemmas: scans, membership and multiplicity -/

theorem scanFrom_mem (s : List Char) (t : Trie) (id : Int) :
    id ∈ scanFrom t s ↔
      ∃ p, p ≠ [] ∧ beginsWith p s = true ∧ endAt t p = some id := by
  induction s generalizing t with
  | nil =>
      simp only [scanFrom, List.not_mem_nil, false_iff]
      rintro ⟨p, hp, hb, -⟩
      cases p with
      | nil => exact hp rfl
      | cons d p' => simp [beginsWith] at hb
  | cons c rest ih =>
      rw [scanFrom]
      cases hc : lookupChild t.children c with
      | none =>
          simp only [List.not_mem_nil, false_iff]
          rintro ⟨p, hp, hb, he⟩
          cases p with
          | nil => exact hp rfl
          | cons d p' =>
              have hdc : d = c := by
                by_contra hne
                simp [beginsWith, hne] at hb
              subst hdc
              rw [endAt_cons, hc] at he
              exact Option.noConfusion he
      | some t2 =>
          constructor
          · intro h
            rcases List.mem_append.mp h with h1 | h2
            · have he : t2.isEnd = true ∧ id = t2.skillId := by
                by_cases hend : t2.isEnd = true
                · simp [hend] at h1; exact ⟨hend, h1⟩
                · simp [hend] at h1
              refine ⟨[c], by simp, by simp [beginsWith], ?_⟩
              simp only [endAt_cons, hc, endAt_nil, if_pos he.1, he.2]
            · rcases (ih t2).mp h2 with ⟨p, hp, hb, he⟩
              refine ⟨c :: p, by simp, by simp [beginsWith, hb], ?_⟩
              simp only [endAt_cons, hc]
              exact he
          · rintro ⟨p, hp, hb, he⟩
            cases p with
            | nil => exact absurd rfl hp
            | cons d p' =>
                have hdc : d = c := by
                  by_contra hne
                  simp [beginsWith, hne] at hb
                subst hdc
                simp only [endAt_cons, hc] at he
                have hb' : beginsWith p' rest = true := by
                  simpa [beginsWith] using hb
                cases p' with
                | nil =>
                    rw [endAt_nil] at he
                    by_cases hend : t2.isEnd = true
                    · rw [if_pos hend] at he
                      apply List.mem_append.mpr
                      left
                      simp [hend, Option.some_injective _ he |>.symm]
                    · rw [if_neg hend] at he
                      exact Option.noConfusion he
                | cons d' p'' =>
                    apply List.mem_append.mpr
                    right
                    exact (ih t2).mpr ⟨d' :: p'', by simp, hb', he⟩

theorem scanAll_mem (s : List Char) (t : Trie) (id : Int) :
    id ∈ scanAll t s ↔
      ∃ p, p ≠ [] ∧ occursIn p s = true ∧ endAt t p = some id := by
  induction s with
  | nil =>
      simp only [scanAll, List.not_mem_nil, false_iff]
      rintro ⟨p, -, hb, -⟩
      exact Bool.noConfusion hb
  | cons c rest ih =>
      rw [scanAll]
      constructor
      · intro h
        rcases List.mem_append.mp h with h1 | h2
        · rcases (scanFrom_mem (c :: rest) t id).mp h1 with ⟨p, hp, hb, he⟩
          exact ⟨p, hp, by simp [occursIn, hb], he⟩
        · rcases ih.mp h2 with ⟨p, hp, ho, he⟩
          exact ⟨p, hp, by simp [occursIn, ho], he⟩
      · rintro ⟨p, hp, ho, he⟩
        rcases Bool.or_eq_true_iff.mp (by simpa [occursIn] using ho) with hb | ho'
        · exact List.mem_append.mpr (Or.inl ((scanFrom_mem (c :: rest) t id).mpr ⟨p, hp, hb, he⟩))
        · exact List.mem_append.mpr (Or.inr (ih.mpr ⟨p, hp, ho', he⟩))

theorem scanFrom_not_mem (s : List Char) (t : Trie) (id : Int)
    (h : ∀ p, p ≠ [] → endAt t p ≠ some id) : id ∉ scanFrom t s := by
  intro hm
  rcases (scanFrom_mem s t id).mp hm with ⟨p, hp, -, he⟩
  exact h p hp he

/-- Multiplicity of one skill id in a single start-position scan: `1` when
the (unique) phrase carrying that id begins at this position, else `0`. -/
theorem scanFrom_count (s : List Char) (t : Trie) (w : List Char) (id : Int)
    (hyp : ∀ p, p ≠ [] → (endAt t p = some id ↔ p = w)) (hw : w ≠ []) :
    (scanFrom t s).count id = if beginsWith w s = true then 1 else 0 := by
  induction s generalizing t w with
  | nil =>
      cases w with
      | nil => exact absurd rfl hw
      | cons d w' => simp [scanFrom, beginsWith]
  | cons c rest ih =>
      rw [scanFrom]
      cases w with
      | nil => exact absurd rfl hw
      | cons d w' =>
      cases hc : lookupChild t.children c with
      | none =>
          have hne : beginsWith (d :: w') (c :: rest) = false := by
            by_contra hb
            rw [Bool.not_eq_false] at hb
            have hdc : d = c := by
              by_contra hne
              simp [beginsWith, hne] at hb
            subst hdc
            have he : endAt t (d :: w') = some id := (hyp _ (by simp)).mpr rfl
            rw [endAt_cons, hc] at he
            exact Option.noConfusion he
          simp [hne]
      | some t2 =>
          rw [List.count_append]
          have hyp2 : ∀ p, p ≠ [] → (endAt t2 p = some id ↔ c :: p = d :: w') := by
            intro p hp
            rw [← hyp (c :: p) (by simp)]
            simp only [endAt_cons, hc]
          by_cases hdc : d = c
          · subst hdc
            cases w' with
            | nil =>
                have he : endAt t (d :: []) = some id := (hyp _ (by simp)).mpr rfl
                simp only [endAt_cons, hc, endAt_nil] at he
                by_cases hend : t2.isEnd = true
                · rw [if_pos hend] at he
                  have h2 : id ∉ scanFrom t2 rest := by
                    apply scanFrom_not_mem
                    intro p hp hep
                    have := (hyp2 p hp).mp hep
                    simp at this
                    exact hp this
                  rw [List.count_eq_zero.mpr h2]
                  simp [hend, beginsWith, Option.some_injective _ he]
                · rw [if_neg hend] at he
                  exact Option.noConfusion he
            | cons e' w'' =>
                have h1 : List.count id (if t2.isEnd = true then [t2.skillId] else []) = 0 := by
                  by_cases hend : t2.isEnd = true
                  · by_cases hid : t2.skillId = id
                    · exfalso
                      have he : endAt t (d :: []) = some id := by
                        simp only [endAt_cons, hc, endAt_nil, if_pos hend, hid]
                      have := (hyp _ (by simp)).mp he
                      simp at this
                    · rw [if_pos hend, List.count_eq_zero, List.mem_singleton]
                      exact fun h => hid h.symm
                  · simp [hend]
                rw [h1]
                have ihap := ih t2 (e' :: w'')
                  (by
                    intro p hp
                    rw [hyp2 p hp]
                    simp)
                  (by simp)
                rw [ihap]
                simp [beginsWith]
          · have h1 : List.count id (if t2.isEnd = true then [t2.skillId] else []) = 0 := by
              by_cases hend : t2.isEnd = true
              · by_cases hid : t2.skillId = id
                · exfalso
                  have he : endAt t (c :: []) = some id := by
                    simp only [endAt_cons, hc, endAt_nil, if_pos hend, hid]
                  have := (hyp _ (by simp)).mp he
                  simp at this
                  exact hdc this.1.symm
                · rw [if_pos hend, List.count_eq_zero, List.mem_singleton]
                  exact fun h => hid h.symm
              · simp [hend]
            have h2 : id ∉ scanFrom t2 rest := by
              apply scanFrom_not_mem
              intro p hp hep
              have := (hyp2 p hp).mp hep
              simp at this
              exact hdc this.1.symm
            rw [h1, List.count_eq_zero.mpr h2]
            simp [beginsWith, hdc]

/-- Multiplicity of one skill id in a full extraction run: one per start
position at which its phrase occurs. -/
theorem scanAll_count (s : List Char) (t : Trie) (w : List Char) (id : Int)
    (hyp : ∀ p, p ≠ [] → (endAt t p = some id ↔ p = w)) (hw : w ≠ []) :
    (scanAll t s).count id = occCount w s := by
  induction s with
  | nil => rfl
  | cons c rest ih =>
      rw [scanAll, List.count_append, occCount, scanFrom_count (c :: rest) t w id hyp hw, ih]

/-- The hypothesis of the count lemmas, discharged for the catalog trie:
id `i` marks exactly the walk of the `i`-th catalog phrase. -/
theorem endAt_catalogTrie_unique (i : Nat) (hi : i < catalog.length) :
    ∀ p, p ≠ [] → (endAt catalogTrie p = some (i : Int) ↔ p = catalog.getD i []) := by
  intro p _
  rw [endAt_catalogTrie_iff]
  constructor
  · rintro ⟨j, hj, hpj, hij⟩
    have : j = i := by exact_mod_cast hij.symm
    subst this
    exact hpj.symm
  · intro hp
    exact ⟨i, hi, hp.symm, rfl⟩

/-! ## Scoring lemmas -/

theorem foldl_bonus (l : List Int) (init : ℝ) :
    l.foldl (fun acc _ => acc + 1 * 0.1) init = init + (l.length : ℝ) * 0.1 := by
  induction l generalizing init with
  | nil => simp
  | cons a l ih =>
      rw [List.foldl_cons, ih, List.length_cons]
      push_cast
      ring

theorem sum_map_ite_filter (l : List Int) (f g : Int → ℝ) (r : List Int) :
    (l.map (fun s => f s * if s ∈ r then g s else 0)).sum
      = ((l.filter (fun s => decide (s ∈ r))).map (fun s => f s * g s)).sum := by
  induction l with
  | nil => rfl
  | cons a l ih =>
      by_cases h : a ∈ r
      · rw [List.map_cons, List.sum_cons, if_pos h,
          List.filter_cons_of_pos (by simpa using h), List.map_cons, List.sum_cons, ih]
      · rw [List.map_cons, List.sum_cons, if_neg h,
          List.filter_cons_of_neg (by simpa using h), ih, mul_zero, zero_add]

/-- The code's dot-product loop equals the sum over the common (shared)
skill ids. -/
theorem dotProduct_eq (job resume : Doc) :
    dotProduct job resume
      = ((commonSkills job resume).map (fun s => mapWeight job s * mapWeight resume s)).sum :=
  sum_map_ite_filter (uniqueIds job) (mapWeight job) (mapWeight resume) resume.skillIds

/-- Weights all nonnegative implies every map value is nonnegative. -/
theorem mapWeight_nonneg (d : Doc) (hw : ∀ w ∈ d.skillWeights, 0 ≤ w) (s : Int) :
    0 ≤ mapWeight d s := by
  unfold mapWeight
  cases hf : (d.skillIds.zip d.skillWeights).reverse.find? (fun p => p.1 == s) with
  | none => simp
  | some p =>
      simp only
      obtain ⟨a, b⟩ := p
      have hp : (a, b) ∈ (d.skillIds.zip d.skillWeights).reverse :=
        List.mem_of_find?_eq_some hf
      exact hw b (List.of_mem_zip (List.mem_reverse.mp hp)).2

theorem normSq_nonneg (d : Doc) : 0 ≤ normSq d := by
  apply List.sum_nonneg
  intro x hx
  rcases List.mem_map.mp hx with ⟨s, -, rfl⟩
  exact mul_self_nonneg _

theorem dotProduct_nonneg (job resume : Doc)
    (hwj : ∀ w ∈ job.skillWeights, 0 ≤ w) (hwr : ∀ w ∈ resume.skillWeights, 0 ≤ w) :
    0 ≤ dotProduct job resume := by
  apply List.sum_nonneg
  intro x hx
  rcases List.mem_map.mp hx with ⟨s, -, rfl⟩
  apply mul_nonneg (mapWeight_nonneg job hwj s)
  by_cases h : s ∈ resume.skillIds
  · rw [if_pos h]; exact mapWeight_nonneg resume hwr s
  · rw [if_neg h]

theorem cosine_nonneg (job resume : Doc)
    (hwj : ∀ w ∈ job.skillWeights, 0 ≤ w) (hwr : ∀ w ∈ resume.skillWeights, 0 ≤ w) :
    0 ≤ calculateCosineSimilarity job resume := by
  unfold calculateCosineSimilarity
  by_cases h : normSq job = 0 ∨ normSq resume = 0
  · rw [if_pos h]
  · rw [if_neg h]
    exact div_nonneg (dotProduct_nonneg job resume hwj hwr)
      (mul_nonneg (Real.sqrt_nonneg _) (Real.sqrt_nonneg _))

/-- Score bounds, for documents whose stored weights are nonnegative. -/
theorem advScore_bounds (job resume : Doc)
    (hwj : ∀ w ∈ job.skillWeights, 0 ≤ w) (hwr : ∀ w ∈ resume.skillWeights, 0 ≤ w) :
    0 ≤ calculateAdvancedMatchScore job resume ∧ calculateAdvancedMatchScore job resume ≤ 1 := by
  unfold calculateAdvancedMatchScore
  by_cases h0 : job.skillIds = [] ∨ resume.skillIds = []
  · rw [if_pos h0]
    norm_num
  · rw [if_neg h0]
    by_cases hc : commonSkills job resume = []
    · simp only [hc, if_pos]
      norm_num
    · rw [if_neg hc]
      simp only
      constructor
      · apply le_min _ zero_le_one
        have hb : (0:ℝ) ≤ (commonSkills job resume).foldl (fun acc _ => acc + 1 * 0.1) 0 := by
          rw [foldl_bonus]
          positivity
        have hratio1 : (0:ℝ) ≤ ((commonSkills job resume).length : ℝ) / (job.skillIds.length : ℝ) :=
          div_nonneg (Nat.cast_nonneg _) (Nat.cast_nonneg _)
        have hratio2 : (0:ℝ) ≤ ((commonSkills job resume).length : ℝ) / (resume.skillIds.length : ℝ) :=
          div_nonneg (Nat.cast_nonneg _) (Nat.cast_nonneg _)
        have hcos := cosine_nonneg job resume hwj hwr
        nlinarith
      · exact min_le_right _ _

/-! ## The specification-side scoring formulas (for the refinement claim) -/

/-- The norm of a document's skill-weight vector. -/
noncomputable def docNorm (d : Doc) : ℝ := Real.sqrt (normSq d)

/-- Modelled from the claim's wording: "cosineSimilarity is the dot product
of the two documents' skill-weight vectors over shared ids divided by the
product of the two vector norms (0 if either norm is 0)". -/
noncomputable def specCosineSimilarity (job resume : Doc) : ℝ :=
  if docNorm job = 0 ∨ docNorm resume = 0 then 0
  else ((commonSkills job resume).map (fun s => mapWeight job s * mapWeight resume s)).sum
        / (docNorm job * docNorm resume)

/-- Modelled from the claim's wording: `overallScore = min(1.0,
0.4·skillMatchRatio + 0.3·coverageRatio + 0.3·cosineSimilarity +
0.1·|commonSkillIds|)`. -/
noncomputable def specOverallScore (job resume : Doc) : ℝ :=
  min 1 (0.4 * (((commonSkills job resume).length : ℝ) / (job.skillIds.length : ℝ))
       + 0.3 * (((commonSkills job resume).length : ℝ) / (resume.skillIds.length : ℝ))
       + 0.3 * specCosineSimilarity job resume
       + 0.1 * ((commonSkills job resume).length : ℝ))

theorem cosine_eq_spec (job resume : Doc) :
    calculateCosineSimilarity job resume = specCosineSimilarity job resume := by
  unfold calculateCosineSimilarity specCosineSimilarity docNorm
  have hj : Real.sqrt (normSq job) = 0 ↔ normSq job = 0 :=
    Real.sqrt_eq_zero (normSq_nonneg job)
  have hr : Real.sqrt (normSq resume) = 0 ↔ normSq resume = 0 :=
    Real.sqrt_eq_zero (normSq_nonneg resume)
  by_cases h : normSq job = 0 ∨ normSq resume = 0
  · rw [if_pos h, if_pos (by rw [hj, hr]; exact h)]
  · rw [if_neg h, if_neg (by rw [hj, hr]; exact h), dotProduct_eq]

/-! ## State invariants of reachable matcher states -/

/-- All stored weights of a document are nonnegative. -/
def nonnegWeights (d : Doc) : Prop := ∀ w ∈ d.skillWeights, 0 ≤ w

theorem mkJob_nonneg (id : Int) (desc : List Char) : nonnegWeights (mkJob id desc) := by
  intro w hw
  rw [List.eq_of_mem_replicate hw]
  norm_num

theorem mkResume_nonneg (id : Int) (desc : List Char) : nonnegWeights (mkResume id desc) := by
  intro w hw
  rw [List.eq_of_mem_replicate hw]
  norm_num

theorem applyIdf_skillIds (f : Int → ℝ) (d : Doc) : (applyIdf f d).skillIds = d.skillIds := rfl

theorem applyIdf_id (f : Int → ℝ) (d : Doc) : (applyIdf f d).id = d.id := rfl

/-- The IDF weight of a skill that occurs in some document of the corpus is
nonnegative: `1 ≤ documentFrequency ≤ totalDocuments`, so `N/df ≥ 1` and
`ln(N/df) ≥ 0`. -/
theorem idfWeight_nonneg (s : MatcherState) (sk : Int) (d : Doc)
    (hd : d ∈ s.jobs ++ s.resumes) (hsk : sk ∈ d.skillIds) : 0 ≤ idfWeight s sk := by
  have hdf1 : 0 < documentFrequency s sk :=
    List.countP_pos_iff.mpr ⟨d, hd, by simpa using hsk⟩
  have hdfN : documentFrequency s sk ≤ totalDocuments s := by
    have := List.countP_le_length (l := s.jobs ++ s.resumes)
      (p := fun d => decide (sk ∈ d.skillIds))
    rw [List.length_append] at this
    exact this
  apply Real.log_nonneg
  rw [one_le_div (by exact_mod_cast hdf1)]
  exact_mod_cast hdfN

theorem lookupIdx_mem (m : List (Int × Nat)) (id : Int) (ix : Nat)
    (h : lookupIdx m id = some ix) : (id, ix) ∈ m := by
  induction m with
  | nil => exact Option.noConfusion h
  | cons p rest ih =>
      obtain ⟨k, v⟩ := p
      rw [lookupIdx] at h
      by_cases hk : id = k
      · rw [if_pos hk] at h
        have hv : v = ix := Option.some_injective _ h
        subst hk
        subst hv
        exact List.mem_cons_self _ _
      · rw [if_neg hk] at h
        exact List.mem_cons_of_mem _ (ih h)

/-- Combined invariant of all reachable states: all stored weights
nonnegative, all id→index map entries within array bounds, and every valid
resume map entry points at the resume with that id. -/
def StateInv (s : MatcherState) : Prop :=
  (∀ d ∈ s.jobs, nonnegWeights d) ∧ (∀ d ∈ s.resumes, nonnegWeights d) ∧
  (∀ p ∈ s.jobIdToIndex, p.2 < s.jobs.length) ∧
  (∀ p ∈ s.resumeIdToIndex, p.2 < s.resumes.length) ∧
  (∀ id ix, lookupIdx s.resumeIdToIndex id = some ix → ix < s.resumes.length →
      (s.resumes.getD ix defaultDoc).id = id)

theorem calculateTFIDF_inv (s : MatcherState) (h : StateInv s) :
    StateInv (calculateTFIDF s) := by
  obtain ⟨h1, h2, h3, h4, h5⟩ := h
  refine ⟨?_, ?_, ?_, ?_, ?_⟩
  · rintro d hd
    rcases List.mem_map.mp hd with ⟨d0, hd0, rfl⟩
    intro w hw
    rcases List.mem_append.mp hw with hl | hr
    · rcases List.mem_map.mp hl with ⟨sk, hsk, rfl⟩
      exact idfWeight_nonneg s sk d0 (List.mem_append_left _ hd0) hsk
    · exact h1 d0 hd0 w (List.drop_subset _ _ hr)
  · rintro d hd
    rcases List.mem_map.mp hd with ⟨d0, hd0, rfl⟩
    intro w hw
    rcases List.mem_append.mp hw with hl | hr
    · rcases List.mem_map.mp hl with ⟨sk, hsk, rfl⟩
      exact idfWeight_nonneg s sk d0 (List.mem_append_right _ hd0) hsk
    · exact h2 d0 hd0 w (List.drop_subset _ _ hr)
  · intro p hp
    simp only [calculateTFIDF, List.length_map]
    exact h3 p hp
  · intro p hp
    simp only [calculateTFIDF, List.length_map]
    exact h4 p hp
  · intro id ix hl hix
    simp only [calculateTFIDF, List.length_map] at hix ⊢
    rw [List.getD_eq_getElem _ _ (by simpa using hix), List.getElem_map, applyIdf_id,
      ← List.getD_eq_getElem _ defaultDoc (by simpa using hix)]
    exact h5 id ix hl (by simpa using hix)

theorem loadJobsAux_inv (lines : List (List Char)) :
    ∀ (s : MatcherState) (n : Int), StateInv s → StateInv (loadJobsAux s lines n) := by
  induction lines with
  | nil => intro s n h; exact h
  | cons line rest ih =>
      intro s n h
      obtain ⟨h1, h2, h3, h4, h5⟩ := h
      rw [loadJobsAux]
      by_cases hl : line = []
      · rw [if_pos hl]; exact ih s n ⟨h1, h2, h3, h4, h5⟩
      · rw [if_neg hl]
        apply ih
        refine ⟨?_, h2, ?_, h4, h5⟩
        · intro d hd
          rcases List.mem_append.mp hd with hm | hm
          · exact h1 d hm
          · rw [List.mem_singleton.mp hm]; exact mkJob_nonneg n line
        · intro p hp
          rw [List.length_append, List.length_singleton]
          rcases List.mem_cons.mp hp with rfl | hm
          · simp
          · exact Nat.lt_succ_of_lt (h3 p hm)

theorem loadResumesAux_inv (lines : List (List Char)) :
    ∀ (s : MatcherState) (n : Int), StateInv s → StateInv (loadResumesAux s lines n) := by
  induction lines with
  | nil => intro s n h; exact h
  | cons line rest ih =>
      intro s n h
      obtain ⟨h1, h2, h3, h4, h5⟩ := h
      rw [loadResumesAux]
      by_cases hl : line = []
      · rw [if_pos hl]; exact ih s n ⟨h1, h2, h3, h4, h5⟩
      · rw [if_neg hl]
        apply ih
        refine ⟨h1, ?_, h3, ?_, ?_⟩
        · intro d hd
          rcases List.mem_append.mp hd with hm | hm
          · exact h2 d hm
          · rw [List.mem_singleton.mp hm]; exact mkResume_nonneg n line
        · intro p hp
          rw [List.length_append, List.length_singleton]
          rcases List.mem_cons.mp hp with rfl | hm
          · simp
          · exact Nat.lt_succ_of_lt (h4 p hm)
        · intro id ix hlk hix
          rw [lookupIdx] at hlk
          by_cases hid : id = n
          · rw [if_pos hid] at hlk
            have hix0 : ix = s.resumes.length := (Option.some_injective _ hlk).symm
            subst hix0
            rw [List.getD_eq_getElem _ _ hix]
            rw [List.getElem_concat_length _ _ _ rfl]
            exact hid.symm
          · rw [if_neg hid] at hlk
            have hb : ix < s.resumes.length := h4 (id, ix) (lookupIdx_mem _ _ _ hlk)
            rw [List.getD_append _ _ _ _ hb]
            exact h5 id ix hlk hb

theorem indexMapAux_cases (docs : List Doc) :
    ∀ (i : Nat) (m : List (Int × Nat)) (p : Int × Nat), p ∈ indexMapAux docs i m →
      (∃ j, j < docs.length ∧ p.2 = i + j ∧ (docs.getD j defaultDoc).id = p.1) ∨ p ∈ m := by
  induction docs with
  | nil => intro i m p hp; exact Or.inr hp
  | cons d ds ih =>
      intro i m p hp
      rcases ih (i + 1) ((d.id, i) :: m) p hp with ⟨j, hj, hpe, hid⟩ | hm
      · exact Or.inl ⟨j + 1, by simpa using hj, by omega, hid⟩
      · rcases List.mem_cons.mp hm with rfl | hm'
        · exact Or.inl ⟨0, by simp, by simp, rfl⟩
        · exact Or.inr hm'

theorem indexMapAux_lookup (docs : List Doc) :
    ∀ (i : Nat) (m : List (Int × Nat)) (id : Int) (ix : Nat),
      lookupIdx (indexMapAux docs i m) id = some ix →
      (∃ j, j < docs.length ∧ ix = i + j ∧ (docs.getD j defaultDoc).id = id) ∨
        lookupIdx m id = some ix := by
  induction docs with
  | nil => intro i m id ix h; exact Or.inr h
  | cons d ds ih =>
      intro i m id ix h
      rcases ih (i + 1) ((d.id, i) :: m) id ix h with ⟨j, hj, hje, hid⟩ | hm
      · exact Or.inl ⟨j + 1, by simpa using hj, by omega, hid⟩
      · rw [lookupIdx] at hm
        by_cases hd : id = d.id
        · rw [if_pos hd] at hm
          have hix : i = ix := Option.some_injective _ hm
          exact Or.inl ⟨0, by simp, by omega, by simp [hd]⟩
        · rw [if_neg hd] at hm
          exact Or.inr hm

theorem buildIndices_inv (s : MatcherState) (h : StateInv s) : StateInv (buildIndices s) := by
  obtain ⟨h1, h2, h3, h4, h5⟩ := h
  refine ⟨h1, h2, ?_, ?_, ?_⟩
  · intro p hp
    rcases indexMapAux_cases s.jobs 0 [] p hp with ⟨j, hj, hpe, -⟩ | hm
    · show p.2 < s.jobs.length
      omega
    · exact absurd hm (List.not_mem_nil p)
  · intro p hp
    rcases indexMapAux_cases s.resumes 0 [] p hp with ⟨j, hj, hpe, -⟩ | hm
    · show p.2 < s.resumes.length
      omega
    · exact absurd hm (List.not_mem_nil p)
  · intro id ix hl hix
    rcases indexMapAux_lookup s.resumes 0 [] id ix hl with ⟨j, hj, hje, hid⟩ | hm
    · have hji : j = ix := by omega
      subst hji
      exact hid
    · exact Option.noConfusion hm

theorem reachable_inv (s : MatcherState) (h : Reachable s) : StateInv s := by
  induction h with
  | init =>
      refine ⟨?_, ?_, ?_, ?_, ?_⟩
      · intro d hd; exact absurd hd (List.not_mem_nil d)
      · intro d hd; exact absurd hd (List.not_mem_nil d)
      · intro p hp; exact absurd hp (List.not_mem_nil p)
      · intro p hp; exact absurd hp (List.not_mem_nil p)
      · intro id ix hl; exact Option.noConfusion hl
  | addJob s id desc hs ih =>
      obtain ⟨h1, h2, h3, h4, h5⟩ := ih
      refine ⟨?_, h2, ?_, h4, h5⟩
      · intro d hd
        rcases List.mem_append.mp hd with hm | hm
        · exact h1 d hm
        · rw [List.mem_singleton.mp hm]; exact mkJob_nonneg id desc
      · intro p hp
        show p.2 < (s.jobs ++ [mkJob id desc]).length
        rw [List.length_append, List.length_singleton]
        exact Nat.lt_succ_of_lt (h3 p hp)
  | addResume s id desc hs ih =>
      obtain ⟨h1, h2, h3, h4, h5⟩ := ih
      refine ⟨h1, ?_, h3, ?_, ?_⟩
      · intro d hd
        rcases List.mem_append.mp hd with hm | hm
        · exact h2 d hm
        · rw [List.mem_singleton.mp hm]; exact mkResume_nonneg id desc
      · intro p hp
        show p.2 < (s.resumes ++ [mkResume id desc]).length
        rw [List.length_append, List.length_singleton]
        exact Nat.lt_succ_of_lt (h4 p hp)
      · intro rid ix hl hix
        have hb : ix < s.resumes.length := h4 (rid, ix) (lookupIdx_mem _ _ _ hl)
        show ((s.resumes ++ [mkResume id desc]).getD ix defaultDoc).id = rid
        rw [List.getD_append _ _ _ _ hb]
        exact h5 rid ix hl hb
  | loadJobs s lines hs ih =>
      exact calculateTFIDF_inv _ (loadJobsAux_inv lines s 1 ih)
  | loadResumes s lines hs ih =>
      exact calculateTFIDF_inv _ (loadResumesAux_inv lines s 1 ih)
  | buildIndices s hs ih =>
      exact buildIndices_inv s ih

/-! ## Claim theorems -/

/-- C3: for every input text and every catalog skill phrase, extraction
includes that skill's id iff the phrase occurs as a contiguous substring of
the lowercased text (no word-boundary alignment); extraction of the empty
text returns the empty result (no error: the function is total). -/
theorem C3_extraction_substring :
    ∀ (text : List Char) (i : Nat), i < catalog.length →
      (((i : Int) ∈ extractSkills catalogTrie text) ↔
        occursIn (catalog.getD i []) (lowerStr text) = true) ∧
      extractSkills catalogTrie [] = [] := by
  intro text i hi
  refine ⟨?_, rfl⟩
  rw [extractSkills, scanAll_mem]
  constructor
  · rintro ⟨p, hp, ho, he⟩
    have hpw := (endAt_catalogTrie_unique i hi p hp).mp he
    rw [hpw] at ho
    exact ho
  · intro ho
    exact ⟨catalog.getD i [], catalog_ne_nil i hi, ho,
      (endAt_catalogTrie_unique i hi _ (catalog_ne_nil i hi)).mpr rfl⟩

/-- Witness for C3 at a concrete input: skill 1 = "java" is found inside
"Javascript" (substring, not word-aligned). -/
theorem C3_witness :
    1 < catalog.length ∧
      ((((1 : Nat) : Int) ∈ extractSkills catalogTrie "Javascript".data) ↔
        occursIn (catalog.getD 1 []) (lowerStr "Javascript".data) = true) ∧
      extractSkills catalogTrie [] = [] :=
  ⟨by decide, C3_extraction_substring "Javascript".data 1 (by decide)⟩

/-- C4 counterexample: the claim "skillIds contains no duplicate values"
fails on the code. The document built from the text "java java" stores the
id of "java" once per occurrence, so its `skillIds` is `[1, 1]`. -/
theorem C4_counterexample : ¬ (mkJob 1 "java java".data).skillIds.Nodup := by
  decide

/-- C4 amended: a document's `skillIds` contains one entry per occurrence of
a catalog phrase in the text — a catalog skill whose phrase occurs at `n`
start positions contributes its id exactly `n` times (so duplicates are
kept, not removed). -/
theorem C4_count_per_occurrence :
    ∀ (text : List Char) (i : Nat), i < catalog.length →
      (mkJob 0 text).skillIds.count ((i : Nat) : Int)
          = occCount (catalog.getD i []) (lowerStr text) ∧
      (mkResume 0 text).skillIds.count ((i : Nat) : Int)
          = occCount (catalog.getD i []) (lowerStr text) := by
  intro text i hi
  have h := scanAll_count (lowerStr text) catalogTrie (catalog.getD i []) (i : Int)
    (endAt_catalogTrie_unique i hi) (catalog_ne_nil i hi)
  exact ⟨h, h⟩

/-- Witness for the amended C4: "java" occurs twice in "java java" and id 1
appears twice in the extracted skill ids. -/
theorem C4_count_witness :
    1 < catalog.length ∧
      (mkJob 0 "java java".data).skillIds.count ((1 : Nat) : Int)
        = occCount (catalog.getD 1 []) (lowerStr "java java".data) :=
  ⟨by decide, (C4_count_per_occurrence "java java".data 1 (by decide)).1⟩

/-- The early guards of `calculateAdvancedMatchScore`: zero skills on either
side, or an empty intersection, give score `0`. -/
theorem advScore_zero_cases (job resume : Doc)
    (h : job.skillIds = [] ∨ resume.skillIds = [] ∨
      ∀ sk ∈ job.skillIds, sk ∉ resume.skillIds) :
    calculateAdvancedMatchScore job resume = 0 := by
  by_cases h0 : job.skillIds = [] ∨ resume.skillIds = []
  · simp only [calculateAdvancedMatchScore, if_pos h0]
  · have hdisj : ∀ sk ∈ job.skillIds, sk ∉ resume.skillIds := by
      rcases h with h | h | h
      · exact absurd (Or.inl h) h0
      · exact absurd (Or.inr h) h0
      · exact h
    have hc : commonSkills job resume = [] := by
      rw [commonSkills, List.filter_eq_nil_iff]
      intro a ha
      simp only [decide_eq_true_eq]
      exact hdisj a (List.mem_dedup.mp ha)
    simp only [calculateAdvancedMatchScore, if_neg h0, hc, if_pos]

/-- C7: if either document has no extracted skills, or the two skill-id sets
do not intersect, the score is `0` (returned from the early guards, before
any ratio is formed; the embedded function is total, so no error). -/
theorem C7_zero_overlap_zero_score :
    ∀ job resume : Doc,
      (job.skillIds = [] ∨ resume.skillIds = [] ∨
        ∀ sk ∈ job.skillIds, sk ∉ resume.skillIds) →
      calculateAdvancedMatchScore job resume = 0 := by
  intro job resume h
  exact advScore_zero_cases job resume h

/-- Witness for C7: a job with no recognized skills scores `0` against any
resume. -/
theorem C7_witness :
    (mkJob 1 "zzz".data).skillIds = [] ∧
      calculateAdvancedMatchScore (mkJob 1 "zzz".data) (mkResume 1 "python".data) = 0 :=
  ⟨by decide, C7_zero_overlap_zero_score _ _ (Or.inl (by decide))⟩

/-- C1: when both documents have at least one extracted skill and their
skill-id sets intersect, the code's score equals the claimed formula
`min(1, 0.4·skillMatchRatio + 0.3·coverageRatio + 0.3·cosineSimilarity +
0.1·|commonSkillIds|)`, with the cosine as specified (shared-id dot product
over the product of the two norms, `0` on a zero norm). -/
theorem C1_score_formula :
    ∀ job resume : Doc, job.skillIds ≠ [] → resume.skillIds ≠ [] →
      (∃ sk, sk ∈ job.skillIds ∧ sk ∈ resume.skillIds) →
      calculateAdvancedMatchScore job resume = specOverallScore job resume := by
  intro job resume hj hr hint
  have hcommon : commonSkills job resume ≠ [] := by
    obtain ⟨sk, h1, h2⟩ := hint
    exact List.ne_nil_of_mem
      (List.mem_filter.mpr ⟨List.mem_dedup.mpr h1, by simpa using h2⟩)
  simp only [calculateAdvancedMatchScore, specOverallScore,
    if_neg (show ¬(job.skillIds = [] ∨ resume.skillIds = []) from by
      push_neg
      exact ⟨hj, hr⟩),
    if_neg hcommon]
  rw [min_comm]
  congr 1
  rw [foldl_bonus, cosine_eq_spec]
  ring

/-- Witness for C1 at a concrete pair (job "python sql", resume "python"). -/
theorem C1_witness :
    (mkJob 1 "python sql".data).skillIds ≠ [] ∧
      calculateAdvancedMatchScore (mkJob 1 "python sql".data) (mkResume 1 "python".data)
        = specOverallScore (mkJob 1 "python sql".data) (mkResume 1 "python".data) :=
  ⟨by decide, C1_score_formula _ _ (by decide) (by decide) ⟨0, by decide, by decide⟩⟩

/-- The effect of the TFIDF write loop on one weight position. -/
theorem applyIdf_getD (f : Int → ℝ) (d : Doc) (i : Nat) (hi : i < d.skillIds.length) :
    (applyIdf f d).skillWeights.getD i 0 = f (d.skillIds.getD i 0) := by
  show (d.skillIds.map f ++ d.skillWeights.drop d.skillIds.length).getD i 0 = _
  rw [List.getD_append _ _ _ _ (by simpa using hi),
    List.getD_eq_getElem _ _ (by simpa using hi), List.getElem_map,
    List.getD_eq_getElem _ _ hi]

/-- The per-document effect of `calculateTFIDF`, together with the
nonnegativity facts, for a document of the corpus. -/
theorem applyIdf_spec (s : MatcherState) (d0 : Doc) (hd0 : d0 ∈ s.jobs ++ s.resumes)
    (i : Nat) (hi : i < d0.skillIds.length) :
    (applyIdf (idfWeight s) d0).skillWeights.getD i 0
        = Real.log ((totalDocuments s : ℝ)
            / (documentFrequency s ((applyIdf (idfWeight s) d0).skillIds.getD i 0) : ℝ))
      ∧ 0 ≤ (applyIdf (idfWeight s) d0).skillWeights.getD i 0
      ∧ (documentFrequency s ((applyIdf (idfWeight s) d0).skillIds.getD i 0)
            = totalDocuments s →
          (applyIdf (idfWeight s) d0).skillWeights.getD i 0 = 0) := by
  have hsk : d0.skillIds.getD i 0 ∈ d0.skillIds := by
    rw [List.getD_eq_getElem _ _ hi]
    exact List.getElem_mem _
  have heq : (applyIdf (idfWeight s) d0).skillWeights.getD i 0
      = idfWeight s (d0.skillIds.getD i 0) := applyIdf_getD _ _ _ hi
  have hN : 0 < totalDocuments s := by
    have := List.length_pos_of_mem hd0
    rw [List.length_append] at this
    unfold totalDocuments
    omega
  rw [applyIdf_skillIds]
  refine ⟨heq, ?_, ?_⟩
  · rw [heq]
    exact idfWeight_nonneg s _ d0 hd0 hsk
  · intro hdf
    rw [heq]
    unfold idfWeight
    rw [hdf, div_self (by exact_mod_cast hN.ne'), Real.log_one]

/-- C5: after `calculateTFIDF`, every skill-weight position of every
document (job or resume) holds `ln(totalDocuments / documentFrequency)` for
the skill id at that position; every such weight is nonnegative, and a skill
occurring in every document gets weight exactly `0`. -/
theorem C5_idf_weights :
    ∀ (s : MatcherState) (d : Doc) (i : Nat),
      d ∈ (calculateTFIDF s).jobs ++ (calculateTFIDF s).resumes →
      i < d.skillIds.length →
      d.skillWeights.getD i 0
          = Real.log ((totalDocuments s : ℝ) / (documentFrequency s (d.skillIds.getD i 0) : ℝ))
        ∧ 0 ≤ d.skillWeights.getD i 0
        ∧ (documentFrequency s (d.skillIds.getD i 0) = totalDocuments s →
            d.skillWeights.getD i 0 = 0) := by
  intro s d i hd hi
  rcases List.mem_append.mp hd with hj | hr
  · rcases List.mem_map.mp hj with ⟨d0, hd0, rfl⟩
    exact applyIdf_spec s d0 (List.mem_append_left _ hd0) i hi
  · rcases List.mem_map.mp hr with ⟨d0, hd0, rfl⟩
    exact applyIdf_spec s d0 (List.mem_append_right _ hd0) i hi

/-- Witness for C5: a one-job corpus (`"python"`); the recomputed weight at
position 0 is the stated logarithm (here `ln(1/1) = 0`) and nonnegative. -/
theorem C5_witness :
    0 < (applyIdf (idfWeight (addJob initialState (mkJob 1 "python".data)))
          (mkJob 1 "python".data)).skillIds.length ∧
    0 ≤ (applyIdf (idfWeight (addJob initialState (mkJob 1 "python".data)))
          (mkJob 1 "python".data)).skillWeights.getD 0 0 :=
  ⟨by decide,
    (C5_idf_weights (addJob initialState (mkJob 1 "python".data)) _ 0
      (List.mem_append_left _ (List.mem_singleton.mpr rfl)) (by decide)).2.1⟩

/-- C6: in every reachable corpus state — whether or not the IDF recompute
has run — every job/resume pair scores within `[0, 1]`. -/
theorem C6_score_bounds :
    ∀ (s : MatcherState), Reachable s →
      ∀ job ∈ s.jobs, ∀ resume ∈ s.resumes,
        0 ≤ calculateAdvancedMatchScore job resume ∧
          calculateAdvancedMatchScore job resume ≤ 1 := by
  intro s hs job hj resume hr
  obtain ⟨h1, h2, -, -, -⟩ := reachable_inv s hs
  exact advScore_bounds job resume (h1 job hj) (h2 resume hr)

/-- Witness for C6 at a concrete reachable two-document state. -/
theorem C6_witness :
    Reachable (addResume (addJob initialState (mkJob 1 "python".data))
        (mkResume 1 "sql".data)) ∧
      (0 ≤ calculateAdvancedMatchScore (mkJob 1 "python".data) (mkResume 1 "sql".data) ∧
        calculateAdvancedMatchScore (mkJob 1 "python".data) (mkResume 1 "sql".data) ≤ 1) :=
  ⟨Reachable.addResume _ 1 _ (Reachable.addJob _ 1 _ Reachable.init),
    C6_score_bounds _
      (Reachable.addResume _ 1 _ (Reachable.addJob _ 1 _ Reachable.init))
      _ (List.mem_append_right _ (List.mem_singleton.mpr rfl))
      _ (List.mem_append_right _ (List.mem_singleton.mpr rfl))⟩

/-- C9: for a resume id not present in the resume collection of a reachable
state, `findMatches` returns the empty result list (after printing a
user-visible not-found message — I/O outside the model; no exception
escapes, the embedded function is total). -/
theorem C9_not_found_empty :
    ∀ (s : MatcherState), Reachable s → ∀ (resumeId : Int) (k : Nat),
      (∀ r ∈ s.resumes, r.id ≠ resumeId) →
      findMatches s resumeId k = [] := by
  intro s hs resumeId k habs
  obtain ⟨-, -, -, h4, h5⟩ := reachable_inv s hs
  have hnone : searchResume s resumeId = none := by
    unfold searchResume
    cases hl : lookupIdx s.resumeIdToIndex resumeId with
    | none => rfl
    | some ix =>
        have hb : ix < s.resumes.length := h4 (resumeId, ix) (lookupIdx_mem _ _ _ hl)
        exfalso
        have hid := h5 resumeId ix hl hb
        have hmem : s.resumes.getD ix defaultDoc ∈ s.resumes := by
          rw [List.getD_eq_getElem _ _ hb]
          exact List.getElem_mem _
        exact habs _ hmem hid
  unfold findMatches
  rw [hnone]

/-- Witness for C9: the spec's scenario shape — id 999 absent, zero
results. -/
theorem C9_witness : findMatches initialState 999 10 = [] :=
  C9_not_found_empty initialState Reachable.init 999 10
    (fun r hr => absurd hr (List.not_mem_nil r))

/-- C10: `addJob` appends to the job array and leaves `jobIdToIndex`
untouched, so the appended job (at index `|jobs|` of the old state) is never
the result of `searchJob`, which consults only the map. -/
theorem C10_addJob_frame :
    ∀ (s : MatcherState), Reachable s → ∀ (j : Doc),
      (addJob s j).jobIdToIndex = s.jobIdToIndex ∧
      (addJob s j).jobs = s.jobs ++ [j] ∧
      ∀ id : Int, searchJob (addJob s j) id ≠ some s.jobs.length := by
  intro s hs j
  obtain ⟨-, -, h3, -, -⟩ := reachable_inv s hs
  refine ⟨rfl, rfl, ?_⟩
  intro id
  unfold searchJob
  cases hl : lookupIdx (addJob s j).jobIdToIndex id with
  | none => simp
  | some ix =>
      have hb : ix < s.jobs.length := h3 (id, ix) (lookupIdx_mem _ _ _ hl)
      show (if ix < (addJob s j).jobs.length then some ix else none) ≠ some s.jobs.length
      by_cases hlt : ix < (addJob s j).jobs.length
      · rw [if_pos hlt]
        intro hcontra
        have : ix = s.jobs.length := Option.some_injective _ hcontra
        omega
      · rw [if_neg hlt]
        simp

/-- Witness for C10 at the initial state and a concrete job. -/
theorem C10_witness :
    (addJob initialState (mkJob 7 "python".data)).jobIdToIndex
        = initialState.jobIdToIndex ∧
      searchJob (addJob initialState (mkJob 7 "python".data)) 7
        ≠ some initialState.jobs.length :=
  ⟨(C10_addJob_frame initialState Reachable.init (mkJob 7 "python".data)).1,
    (C10_addJob_frame initialState Reachable.init (mkJob 7 "python".data)).2.2 7⟩

/-- C2 (code evaluation at the failing input): `MatchResult::operator<`
compares scores only. For the two results produced by scoring the
identically-described jobs 1 and 2 against the resume "python", the scores
are equal, the ids differ, and the comparator orders neither before the
other — so the sort has no id tie-break (`std::sort`/`std::partial_sort`
are not stable and may emit either order). -/
theorem C2_comparator_ignores_ids :
    (mkMatchResult (mkJob 1 "python".data) (mkResume 1 "python".data) 1).jobId
        ≠ (mkMatchResult (mkJob 2 "python".data) (mkResume 1 "python".data) 1).jobId ∧
    (mkMatchResult (mkJob 1 "python".data) (mkResume 1 "python".data) 1).score
        = (mkMatchResult (mkJob 2 "python".data) (mkResume 1 "python".data) 1).score ∧
    ¬ MatchResult.ltRes (mkMatchResult (mkJob 1 "python".data) (mkResume 1 "python".data) 1)
        (mkMatchResult (mkJob 2 "python".data) (mkResume 1 "python".data) 1) ∧
    ¬ MatchResult.ltRes (mkMatchResult (mkJob 2 "python".data) (mkResume 1 "python".data) 1)
        (mkMatchResult (mkJob 1 "python".data) (mkResume 1 "python".data) 1) := by
  have hsc : (mkMatchResult (mkJob 1 "python".data) (mkResume 1 "python".data) 1).score
      = (mkMatchResult (mkJob 2 "python".data) (mkResume 1 "python".data) 1).score := rfl
  refine ⟨by decide, hsc, ?_, ?_⟩
  · show ¬ _ > _
    rw [hsc]
    exact lt_irrefl _
  · show ¬ _ > _
    rw [hsc]
    exact lt_irrefl _

/-- The property claimed by C8 for the scoring loop of `findMatches`: when
the anchor resume is found, the divisors of the per-candidate
`skillMatchRatio` and `coverageRatio` (the candidate's and the anchor's
skill counts) are never zero. -/
def loopDivisorsNonzero (s : MatcherState) (resumeId : Int) : Prop :=
  searchResume s resumeId ≠ none →
    (∀ job ∈ s.jobs, job.skillIds.length ≠ 0) ∧
    ∀ ix, searchResume s resumeId = some ix →
      (s.resumes.getD ix defaultDoc).skillIds.length ≠ 0

/-- C8 counterexample: a reachable state (one loaded resume "python", one
added job with no recognized skills) in which the loop's `skillMatchRatio`
division has divisor `jobs[i].skillIds.size() == 0` (C++ `0.0/0` = NaN). -/
theorem C8_counterexample :
    Reachable (addJob (loadResumesFromCSV initialState ["python".data])
        (mkJob 1 "hello world".data)) ∧
    ¬ loopDivisorsNonzero
        (addJob (loadResumesFromCSV initialState ["python".data])
          (mkJob 1 "hello world".data)) 1 := by
  constructor
  · exact Reachable.addJob _ 1 _ (Reachable.loadResumes _ _ Reachable.init)
  · intro h
    have hs : searchResume (addJob (loadResumesFromCSV initialState ["python".data])
        (mkJob 1 "hello world".data)) 1 ≠ none := by
      intro hc
      rw [show searchResume (addJob (loadResumesFromCSV initialState ["python".data])
        (mkJob 1 "hello world".data)) 1 = some 0 from rfl] at hc
      exact Option.noConfusion hc
    have hjob := (h hs).1 (mkJob 1 "hello world".data)
      (List.mem_append_right _ (List.mem_singleton.mpr rfl))
    exact hjob (by decide)

/-- C8 amended: only the overall score is guarded (a zero-skill candidate
scores `0` via the early return in `calculateAdvancedMatchScore`); the
loop's `skillMatchRatio` is an unguarded division whose divisor — the
candidate's skill count — is `0` for a zero-skill candidate.  (Over `ℝ` the
model maps division by zero to `0`; C++ `double` evaluates `0.0/0` to NaN,
so the sub-scores are NOT the guarded `0` the claim describes.) -/
theorem C8_guard_only_in_overall_score :
    ∀ (job anchor : Doc) (resumeId : Int), job.skillIds = [] →
      (mkMatchResult job anchor resumeId).score = 0 ∧
      (job.skillIds.length : ℝ) = 0 ∧
      (mkMatchResult job anchor resumeId).skillMatchRatio
        = ((commonSkills job anchor).length : ℝ) / (job.skillIds.length : ℝ) := by
  intro job anchor rid h
  exact ⟨advScore_zero_cases job anchor (Or.inl h), by rw [h]; simp, rfl⟩

/-- Witness for the amended C8. -/
theorem C8_amended_witness :
    (mkJob 1 "hello world".data).skillIds = [] ∧
      (mkMatchResult (mkJob 1 "hello world".data) (mkResume 1 "python".data) 1).score = 0 ∧
      ((mkJob 1 "hello world".data).skillIds.length : ℝ) = 0 ∧
      (mkMatchResult (mkJob 1 "hello world".data) (mkResume 1 "python".data) 1).skillMatchRatio
        = ((commonSkills (mkJob 1 "hello world".data) (mkResume 1 "python".data)).length : ℝ)
            / ((mkJob 1 "hello world".data).skillIds.length : ℝ) :=
  ⟨by decide, C8_guard_only_in_overall_score _ _ 1 (by decide)⟩

end JobMatcher
